import Mathlib

/-!
Verification of the spx-synthetic-chart repository: a shallow embedding in exact
arithmetic (rationals for data and pixel geometry, reals for the transcendental
value transforms) of the leverage simulator, the axis/scale engine, the
viewport controller of src/LiveSP500Canvas.jsx, and the api/spx.js proxy
mapping, together with theorems settling the frozen claims about them.

JavaScript numbers are modelled as exact rationals; Math.log / Math.exp enter
only as the real functions they approximate, and the wheel scale exp(+-0.2) is
carried as a parameter. Calendar arithmetic of ECMAScript Date (UTC) is
modelled by the standard civil-from-days / days-from-civil algorithms over ZZ.
-/

/-! Bounded verification helper: a fuelled binary-splitting checker whose
    soundness lets finitely many calendar facts be established by evaluation. -/

/-! Bounded checker -/

def checkRange (f : ℕ → Bool) : ℕ → ℕ → ℕ → Bool
  | 0, lo, n => n = 0 || (n = 1 && f lo)
  | fuel + 1, lo, n =>
      if n ≤ 1 then n = 0 || (n = 1 && f lo)
      else checkRange f fuel lo (n / 2) && checkRange f fuel (lo + n / 2) (n - n / 2)

theorem checkRange_sound (f : ℕ → Bool) :
    ∀ fuel lo n, checkRange f fuel lo n = true → ∀ i, i < n → f (lo + i) = true := by
  intro fuel
  induction fuel with
  | zero =>
      intro lo n h i hi
      simp only [checkRange, Bool.or_eq_true, Bool.and_eq_true, decide_eq_true_eq] at h
      rcases h with h1 | ⟨h1, h2⟩
      · omega
      · have : i = 0 := by omega
        simpa [this] using h2
  | succ fuel ih =>
      intro lo n h i hi
      simp only [checkRange] at h
      by_cases hn : n ≤ 1
      · rw [if_pos hn] at h
        simp only [Bool.or_eq_true, Bool.and_eq_true, decide_eq_true_eq] at h
        rcases h with h1 | ⟨h1, h2⟩
        · omega
        · have : i = 0 := by omega
          simpa [this] using h2
      · rw [if_neg hn, Bool.and_eq_true] at h
        by_cases hi2 : i < n / 2
        · exact ih lo (n / 2) h.1 i hi2
        · have := ih (lo + n / 2) (n - n / 2) h.2 (i - n / 2) (by omega)
          have heq : lo + n / 2 + (i - n / 2) = lo + i := by omega
          rwa [heq] at this

/-! Hinnant-style civil calendar arithmetic (proleptic Gregorian, UTC),
    modelling ECMAScript Date UTC field decomposition. -/

def yoeStart (yoe : ℕ) : ℕ := 365 * yoe + yoe / 4 - yoe / 100

def fCnt (doe : ℕ) : ℕ := doe - doe / 1460 + doe / 36524 - doe / 146096

def doeYoe (doe : ℕ) : ℕ := fCnt doe / 365

def doeDoy (doe : ℕ) : ℕ := doe - yoeStart (doeYoe doe)

def doeMp (doe : ℕ) : ℕ := (5 * doeDoy doe + 2) / 153

def mpStart (mp : ℕ) : ℕ := (153 * mp + 2) / 5

def bCheck (y : ℕ) : Bool :=
  fCnt (yoeStart y) = 365 * y &&
  (y = 0 || fCnt (yoeStart y - 1) + 1 ≤ 365 * y) &&
  (yoeStart (y + 1) ≤ yoeStart y + 366) &&
  (yoeStart y + 365 ≤ yoeStart (y + 1)) &&
  (yoeStart y ≤ 145731)

set_option maxHeartbeats 1000000 in
theorem bAll : checkRange bCheck 10 0 400 = true := by decide

theorem bFact (y : ℕ) (hy : y ≤ 399) :
    fCnt (yoeStart y) = 365 * y ∧
    (y = 0 ∨ fCnt (yoeStart y - 1) + 1 ≤ 365 * y) ∧
    yoeStart (y + 1) ≤ yoeStart y + 366 ∧
    yoeStart y + 365 ≤ yoeStart (y + 1) ∧
    yoeStart y ≤ 145731 := by
  have h := checkRange_sound bCheck 10 0 400 bAll y (by omega)
  simp only [Nat.zero_add, bCheck, Bool.and_eq_true, Bool.or_eq_true, decide_eq_true_eq] at h
  tauto

/-- Extended year-start table: year 399 has 366 days and the era ends at 146097. -/
def tBound (y : ℕ) : ℕ := if y = 400 then 146097 else yoeStart y

theorem fCnt_step (n : ℕ) (h : n < 146096) : fCnt n ≤ fCnt (n + 1) := by
  unfold fCnt; omega

theorem fCnt_mono {a b : ℕ} (hab : a ≤ b) (hb : b ≤ 146096) : fCnt a ≤ fCnt b := by
  induction b with
  | zero =>
      have ha : a = 0 := by omega
      subst ha; exact le_refl _
  | succ b ih =>
      rcases Nat.lt_or_ge a (b + 1) with h | h
      · exact le_trans (ih (by omega) (by omega)) (fCnt_step b (by omega))
      · have ha : a = b + 1 := by omega
        subst ha; exact le_refl _

theorem fCnt_last : fCnt 146096 = 145999 := by decide

theorem yoeStart_399 : yoeStart 399 = 145731 := by decide

theorem tBound_of_ne (y : ℕ) (h : y ≠ 400) : tBound y = yoeStart y := by
  simp [tBound, h]

theorem tBound_400 : tBound 400 = 146097 := rfl

theorem tBound_399 : tBound 399 = 145731 := by decide

theorem tBound_zero : tBound 0 = 0 := by decide

theorem tBound_one : tBound 1 = 365 := by decide

/-- Successive table entries are at least 365 and at most 366 apart. -/
theorem tBound_gap (y : ℕ) (hy : y ≤ 399) :
    tBound y + 365 ≤ tBound (y + 1) ∧ tBound (y + 1) ≤ tBound y + 366 := by
  have hb := bFact y hy
  rcases Nat.lt_or_ge y 399 with h | h
  · rw [tBound_of_ne y (by omega), tBound_of_ne (y + 1) (by omega)]
    omega
  · have hy' : y = 399 := by omega
    subst hy'
    rw [tBound_399, tBound_400]
    omega

/-- Characterization: a day-of-era bracketed by the year table decomposes to that year. -/
theorem doe_char (doe y : ℕ) (hy : y ≤ 399) (h1 : tBound y ≤ doe) (h2 : doe < tBound (y + 1)) :
    doeYoe doe = y ∧ yoeStart y ≤ doe ∧ doe - yoeStart y ≤ 365 := by
  have hb := bFact y hy
  have hgap := tBound_gap y hy
  have htb : tBound y = yoeStart y := tBound_of_ne y (by omega)
  have hdoele : doe ≤ 146096 := by
    have : tBound (y + 1) ≤ 146097 := by
      rcases Nat.lt_or_ge y 399 with h | h
      · rw [tBound_of_ne (y + 1) (by omega)]
        have hb1 := bFact (y + 1) (by omega)
        omega
      · have hy' : y = 399 := by omega
        subst hy'
        rw [tBound_400]
    omega
  rw [htb] at h1
  have hlow : 365 * y ≤ fCnt doe := by
    have := fCnt_mono h1 hdoele
    omega
  have hhigh : fCnt doe ≤ 365 * y + 364 := by
    rcases Nat.lt_or_ge y 399 with h | h
    · have hb1 := bFact (y + 1) (by omega)
      rw [tBound_of_ne (y + 1) (by omega)] at h2
      have hmono := fCnt_mono (show doe ≤ yoeStart (y + 1) - 1 by omega)
        (by omega)
      omega
    · have hy' : y = 399 := by omega
      subst hy'
      have hmono := fCnt_mono hdoele (le_refl _)
      rw [fCnt_last] at hmono
      omega
  have hyoe : doeYoe doe = y := by
    unfold doeYoe
    omega
  refine ⟨hyoe, h1, ?_⟩
  have : doe < tBound y + 366 := by omega
  omega

/-- Every day of the era is bracketed by some year of the table. -/
theorem doe_bracket (doe : ℕ) (h : doe ≤ 146096) :
    ∃ y, y ≤ 399 ∧ tBound y ≤ doe ∧ doe < tBound (y + 1) := by
  induction doe with
  | zero =>
      refine ⟨0, by omega, ?_, ?_⟩
      · rw [tBound_zero]
      · rw [tBound_one]; omega
  | succ doe ih =>
      obtain ⟨y, hy, h1, h2⟩ := ih (by omega)
      rcases Nat.lt_or_ge (doe + 1) (tBound (y + 1)) with hlt | hge
      · exact ⟨y, hy, by omega, hlt⟩
      · have hy399 : y < 399 := by
          by_contra hc
          have hy' : y = 399 := by omega
          subst hy'
          rw [tBound_400] at hge
          omega
        have hgap := tBound_gap (y + 1) (by omega)
        exact ⟨y + 1, by omega, by omega, by omega⟩

/-- N1: validity of the day-of-era decomposition. -/
theorem doe_valid (doe : ℕ) (h : doe ≤ 146096) :
    doeYoe doe ≤ 399 ∧ yoeStart (doeYoe doe) ≤ doe ∧ doeDoy doe ≤ 365 ∧ doeMp doe ≤ 11 := by
  obtain ⟨y, hy, h1, h2⟩ := doe_bracket doe h
  obtain ⟨hyoe, hs, hd⟩ := doe_char doe y hy h1 h2
  subst hyoe
  refine ⟨hy, hs, ?_, ?_⟩
  · unfold doeDoy; omega
  · unfold doeMp
    have : doeDoy doe ≤ 365 := by unfold doeDoy; omega
    omega

/-- N2: the first day of month mp of year yoe decomposes back to (yoe, mp, day 1). -/
theorem monthStart_valid (y mp : ℕ) (hy : y ≤ 399) (hmp : mp ≤ 11) :
    yoeStart y + mpStart mp ≤ 146096 ∧
    doeYoe (yoeStart y + mpStart mp) = y ∧
    doeDoy (yoeStart y + mpStart mp) = mpStart mp ∧
    doeMp (yoeStart y + mpStart mp) = mp := by
  have hP : mpStart mp ≤ 337 := by unfold mpStart; omega
  have hgap := tBound_gap y hy
  have htb : tBound y = yoeStart y := tBound_of_ne y (by omega)
  have htb1 : tBound (y + 1) ≤ 146097 := by
    rcases Nat.lt_or_ge y 399 with h | h
    · rw [tBound_of_ne (y + 1) (by omega)]
      have hb1 := bFact (y + 1) (by omega)
      omega
    · have hy' : y = 399 := by omega
      subst hy'
      rw [tBound_400]
  have hbr1 : tBound y ≤ yoeStart y + mpStart mp := by omega
  have hbr2 : yoeStart y + mpStart mp < tBound (y + 1) := by omega
  obtain ⟨hyoe, hs, hd⟩ := doe_char (yoeStart y + mpStart mp) y hy hbr1 hbr2
  have hle : yoeStart y + mpStart mp ≤ 146096 := by omega
  have hdoy : doeDoy (yoeStart y + mpStart mp) = mpStart mp := by
    unfold doeDoy
    rw [hyoe]
    omega
  refine ⟨hle, hyoe, hdoy, ?_⟩
  unfold doeMp
  rw [hdoy]
  unfold mpStart
  omega

/-- Month index 1..12 from the shifted month (March-based) index 0..11. -/
def mOf (mp : ℕ) : ℤ := if mp < 10 then (mp : ℤ) + 3 else (mp : ℤ) - 9

def eraOf (z : ℤ) : ℤ := (z + 719468) / 146097

def doeOf (z : ℤ) : ℕ := (z + 719468 - eraOf z * 146097).toNat

/-- Decomposition of an absolute day number into proleptic-Gregorian UTC
    (year, month 1..12, day 1..31), as an ECMAScript Date exposes through
    getUTCFullYear / getUTCMonth / getUTCDate. -/
def civilFromDays (z : ℤ) : ℤ × ℤ × ℤ :=
  ((doeYoe (doeOf z) : ℤ) + eraOf z * 400 + (if mOf (doeMp (doeOf z)) ≤ 2 then 1 else 0),
   mOf (doeMp (doeOf z)),
   (doeDoy (doeOf z) : ℤ) - (mpStart (doeMp (doeOf z)) : ℤ) + 1)

/-- Absolute day number of a (year, month, day) proleptic-Gregorian UTC date,
    linearly extended in d as ECMAScript MakeDay is. -/
def daysFromCivil (y m d : ℤ) : ℤ :=
  let y2 := y - (if m ≤ 2 then 1 else 0)
  let era : ℤ := y2 / 400
  let yoe : ℤ := y2 - era * 400
  let doy : ℤ := (153 * (m + (if 2 < m then -3 else 9)) + 2) / 5 + d - 1
  let doe : ℤ := yoe * 365 + yoe / 4 - yoe / 100 + doy
  era * 146097 + doe - 719468

theorem mOf_range (mp : ℕ) (h : mp ≤ 11) : 1 ≤ mOf mp ∧ mOf mp ≤ 12 := by
  unfold mOf; split <;> omega

theorem mOf_le_two (mp : ℕ) (h : mp ≤ 11) : (mOf mp ≤ 2) ↔ (10 ≤ mp) := by
  unfold mOf; split <;> omega

theorem mOf_shift (mp : ℕ) (h : mp ≤ 11) : mOf mp + (if 2 < mOf mp then -3 else 9) = (mp : ℤ) := by
  unfold mOf
  rcases Nat.lt_or_ge mp 10 with hc | hc
  · rw [if_pos hc, if_pos (by omega)]
    omega
  · rw [if_neg (by omega), if_neg (by omega)]
    omega

theorem doeOf_le (z : ℤ) : doeOf z ≤ 146096 := by
  unfold doeOf eraOf; omega

/-- daysFromCivil at the first of a decomposed month. -/
theorem daysFromCivil_first (era : ℤ) (yoe mp : ℕ) (hy : yoe ≤ 399) (hmp : mp ≤ 11) :
    daysFromCivil ((yoe : ℤ) + era * 400 + (if mOf mp ≤ 2 then 1 else 0)) (mOf mp) 1 =
      era * 146097 + ((yoeStart yoe + mpStart mp : ℕ) : ℤ) - 719468 := by
  unfold daysFromCivil
  dsimp only
  rw [mOf_shift mp hmp]
  have hado : ((yoe : ℤ) + era * 400 + (if mOf mp ≤ 2 then 1 else 0))
      - (if mOf mp ≤ 2 then 1 else 0) = (yoe : ℤ) + era * 400 := by ring
  rw [hado]
  have hera : ((yoe : ℤ) + era * 400) / 400 = era := by omega
  rw [hera]
  unfold yoeStart mpStart
  push_cast
  omega

/-- civilFromDays at an explicitly era-decomposed day number. -/
theorem civilFromDays_decomp (era : ℤ) (doe : ℕ) (h : doe ≤ 146096) :
    civilFromDays (era * 146097 + (doe : ℤ) - 719468) =
      ((doeYoe doe : ℤ) + era * 400 + (if mOf (doeMp doe) ≤ 2 then 1 else 0),
       mOf (doeMp doe),
       (doeDoy doe : ℤ) - (mpStart (doeMp doe) : ℤ) + 1) := by
  have hera : eraOf (era * 146097 + (doe : ℤ) - 719468) = era := by
    unfold eraOf; omega
  have hdoe : doeOf (era * 146097 + (doe : ℤ) - 719468) = doe := by
    unfold doeOf
    rw [hera]
    omega
  unfold civilFromDays
  rw [hera, hdoe]

/-- The first day of the month containing absolute day z. -/
def monthFirstDay (z : ℤ) : ℤ :=
  daysFromCivil (civilFromDays z).1 (civilFromDays z).2.1 1

/-- Re-decomposing the first of the month gives the same year and month, day 1. -/
theorem monthFirstDay_fixed (z : ℤ) :
    civilFromDays (monthFirstDay z) = ((civilFromDays z).1, (civilFromDays z).2.1, 1) := by
  obtain ⟨hy399, hys, hdoy365, hmp11⟩ := doe_valid (doeOf z) (doeOf_le z)
  obtain ⟨hle, hyoe2, hdoy2, hmp2⟩ :=
    monthStart_valid (doeYoe (doeOf z)) (doeMp (doeOf z)) hy399 hmp11
  have h1 : monthFirstDay z =
      eraOf z * 146097 +
        ((yoeStart (doeYoe (doeOf z)) + mpStart (doeMp (doeOf z)) : ℕ) : ℤ) - 719468 := by
    unfold monthFirstDay
    show daysFromCivil
        ((doeYoe (doeOf z) : ℤ) + eraOf z * 400 + (if mOf (doeMp (doeOf z)) ≤ 2 then 1 else 0))
        (mOf (doeMp (doeOf z))) 1 = _
    exact daysFromCivil_first (eraOf z) (doeYoe (doeOf z)) (doeMp (doeOf z)) hy399 hmp11
  rw [h1, civilFromDays_decomp (eraOf z) _ hle, hyoe2, hdoy2, hmp2]
  unfold civilFromDays
  dsimp only
  simp only [Prod.mk.injEq]
  refine ⟨trivial, trivial, by omega⟩

/-- ECMAScript ToInteger as used by the Date constructor: truncation toward zero. -/
def jsTrunc (q : ℚ) : ℤ := if 0 ≤ q then ⌊q⌋ else ⌈q⌉

def dayMs : ℤ := 86400000

/-- Step in milliseconds for each interval token (null for calendar months),
    from intervalToStepMs in LiveSP500Canvas.jsx. -/
def intervalToStepMs (interval : String) : Option ℤ :=
  if interval = "1" then some 60000
  else if interval = "5" then some 300000
  else if interval = "15" then some 900000
  else if interval = "60" then some 3600000
  else if interval = "D" then some 86400000
  else if interval = "W" then some 604800000
  else if interval = "M" then none
  else some 86400000

/-- Alignment of a timestamp to the start of its interval bucket,
    from alignToInterval in LiveSP500Canvas.jsx: month to first-of-month 00:00 UTC,
    week to most recent Monday 00:00 UTC, day/hour/quarter/five/one-minute by flooring,
    unrecognized tokens unchanged. -/
def alignToInterval (ts : ℚ) (interval : String) : ℤ :=
  let z := jsTrunc ts
  if interval = "M" then monthFirstDay (z / dayMs) * dayMs
  else if interval = "W" then
    let day := z / dayMs
    let dow := (day + 4) % 7
    let diff := (dow + 6) % 7
    (day - diff) * dayMs
  else if interval = "D" then z / dayMs * dayMs
  else if interval = "60" then z / 3600000 * 3600000
  else if interval = "15" then z / 900000 * 900000
  else if interval = "5" then z / 300000 * 300000
  else if interval = "1" then z / 60000 * 60000
  else z

/-- Advancing a timestamp by one interval, from addInterval in LiveSP500Canvas.jsx:
    months via setUTCMonth(+1) (MakeDay linear extension), others by a fixed step. -/
def addInterval (ts : ℤ) (interval : String) : ℤ :=
  if interval = "M" then
    let day := ts / dayMs
    let tod := ts - day * dayMs
    let c := civilFromDays day
    let y2 := if c.2.1 = 12 then c.1 + 1 else c.1
    let m2 := if c.2.1 = 12 then 1 else c.2.1 + 1
    (daysFromCivil y2 m2 1 + (c.2.2 - 1)) * dayMs + tod
  else
    let step := (intervalToStepMs interval).getD 86400000
    ts + step

theorem monthFirstDay_idem (d : ℤ) : monthFirstDay (monthFirstDay d) = monthFirstDay d := by
  show daysFromCivil (civilFromDays (monthFirstDay d)).1 (civilFromDays (monthFirstDay d)).2.1 1
      = monthFirstDay d
  rw [monthFirstDay_fixed d]
  rfl

theorem jsTrunc_intCast (n : ℤ) : jsTrunc (n : ℚ) = n := by
  unfold jsTrunc
  split <;> simp

/-- Claim C10: alignToInterval is idempotent for every timestamp and every
    interval token, including unrecognized tokens which pass through unchanged. -/
theorem C10_alignToInterval_idem (ts : ℚ) (interval : String) :
    alignToInterval ((alignToInterval ts interval : ℤ) : ℚ) interval =
      alignToInterval ts interval := by
  unfold alignToInterval
  rw [jsTrunc_intCast]
  by_cases hM : interval = "M"
  · rw [if_pos hM, if_pos hM]
    have h1 : monthFirstDay (jsTrunc ts / dayMs) * dayMs / dayMs
        = monthFirstDay (jsTrunc ts / dayMs) := by
      unfold dayMs; omega
    rw [h1, monthFirstDay_idem]
  rw [if_neg hM, if_neg hM]
  by_cases hW : interval = "W"
  · rw [if_pos hW, if_pos hW]
    dsimp only
    unfold dayMs
    omega
  rw [if_neg hW, if_neg hW]
  by_cases hD : interval = "D"
  · rw [if_pos hD, if_pos hD]
    unfold dayMs
    omega
  rw [if_neg hD, if_neg hD]
  by_cases h60 : interval = "60"
  · rw [if_pos h60, if_pos h60]
    omega
  rw [if_neg h60, if_neg h60]
  by_cases h15 : interval = "15"
  · rw [if_pos h15, if_pos h15]
    omega
  rw [if_neg h15, if_neg h15]
  by_cases h5 : interval = "5"
  · rw [if_pos h5, if_pos h5]
    omega
  rw [if_neg h5, if_neg h5]
  by_cases h1 : interval = "1"
  · rw [if_pos h1, if_pos h1]
    omega
  rw [if_neg h1, if_neg h1]


/-- A chart data point: epoch-milliseconds timestamp and a price value. -/
structure PricePoint where
  time : ℚ
  value : ℚ
deriving DecidableEq, Repr

/-- Loop body of buildSyntheticSeries for indices i >= 1: carries the previous
    raw price and the compounded base. -/
def buildSyntheticGo (leverage : ℚ) : List PricePoint → ℚ → ℚ → List PricePoint
  | [], _, _ => []
  | p :: rest, prev, base =>
      let r := if prev = 0 then 0 else (p.value - prev) / prev
      let base2 := base * (1 + leverage * r)
      ⟨p.time, base2⟩ :: buildSyntheticGo leverage rest p.value base2

/-- buildSyntheticSeries from LiveSP500Canvas.jsx: empty input gives empty output,
    a base of non-number type falls back to 100, the first point carries the base,
    later points compound by 1 + leverage * simple-return. -/
def buildSyntheticSeries (spx : List PricePoint) (leverage : ℚ) (baseStart : Option ℚ) :
    List PricePoint :=
  match spx with
  | [] => []
  | p :: rest =>
      let base := baseStart.getD 100
      ⟨p.time, base⟩ :: buildSyntheticGo leverage rest p.value base

theorem buildSyntheticGo_length (k : ℚ) :
    ∀ (l : List PricePoint) (prev base : ℚ), (buildSyntheticGo k l prev base).length = l.length := by
  intro l
  induction l with
  | nil => intro prev base; rfl
  | cons p rest ih => intro prev base; simp [buildSyntheticGo, ih]

theorem buildSyntheticGo_times (k : ℚ) :
    ∀ (l : List PricePoint) (prev base : ℚ),
      (buildSyntheticGo k l prev base).map PricePoint.time = l.map PricePoint.time := by
  intro l
  induction l with
  | nil => intro prev base; rfl
  | cons p rest ih => intro prev base; simp [buildSyntheticGo, ih]

/-- Simple return of curr against prev, zero when prev is zero (falsy). -/
def simpleReturn (prev curr : ℚ) : ℚ := if prev = 0 then 0 else (curr - prev) / prev

theorem buildSyntheticGo_rec (k : ℚ) :
    ∀ (l : List PricePoint) (prev base : ℚ) (i : ℕ), i < l.length →
      ((buildSyntheticGo k l prev base).getD i ⟨0, 0⟩).value =
        (if i = 0 then base else ((buildSyntheticGo k l prev base).getD (i - 1) ⟨0, 0⟩).value) *
          (1 + k * simpleReturn
            (if i = 0 then prev else (l.getD (i - 1) ⟨0, 0⟩).value)
            ((l.getD i ⟨0, 0⟩).value)) := by
  intro l
  induction l with
  | nil => intro prev base i hi; simp at hi
  | cons p rest ih =>
      intro prev base i hi
      match i with
      | 0 => simp [buildSyntheticGo, simpleReturn]
      | Nat.succ j =>
          simp only [buildSyntheticGo, List.getD_cons_succ]
          have hj : j < rest.length := by simpa using hi
          have := ih p.value (base * (1 + k * simpleReturn prev p.value)) j hj
          match j with
          | 0 =>
              simp only [if_pos rfl] at this
              simpa [buildSyntheticGo, simpleReturn] using this
          | Nat.succ j2 =>
              simp only [Nat.succ_sub_one] at this ⊢
              simpa [buildSyntheticGo, simpleReturn] using this

/-- Claim C1: buildSyntheticSeries preserves length and timestamps, starts at the base,
    compounds by 1 + k * simple-return with zero return on zero previous price,
    maps [100, 110, 99] at leverage 2 base 100 to [100, 120, 96], and maps empty to empty. -/
theorem C1_buildSyntheticSeries_correct :
    (∀ (spx : List PricePoint) (k : ℤ) (b : ℚ),
      (buildSyntheticSeries spx (k : ℚ) (some b)).length = spx.length ∧
      (buildSyntheticSeries spx (k : ℚ) (some b)).map PricePoint.time = spx.map PricePoint.time ∧
      (spx ≠ [] → ((buildSyntheticSeries spx (k : ℚ) (some b)).getD 0 ⟨0, 0⟩).value = b) ∧
      (∀ i, 1 ≤ i → i < spx.length →
        ((buildSyntheticSeries spx (k : ℚ) (some b)).getD i ⟨0, 0⟩).value =
          ((buildSyntheticSeries spx (k : ℚ) (some b)).getD (i - 1) ⟨0, 0⟩).value *
            (1 + (k : ℚ) * simpleReturn ((spx.getD (i - 1) ⟨0, 0⟩).value)
              ((spx.getD i ⟨0, 0⟩).value)))) ∧
    buildSyntheticSeries [⟨0, 100⟩, ⟨1, 110⟩, ⟨2, 99⟩] 2 (some 100) =
      [⟨0, 100⟩, ⟨1, 120⟩, ⟨2, 96⟩] ∧
    (∀ (k b : ℚ), buildSyntheticSeries [] k (some b) = []) := by
  refine ⟨?_, ?_, fun k b => rfl⟩
  · intro spx k b
    match spx with
    | [] =>
        refine ⟨rfl, rfl, fun h => absurd rfl h, ?_⟩
        intro i h1 h2
        simp at h2
    | p0 :: rest =>
        refine ⟨?_, ?_, fun _ => rfl, ?_⟩
        · simp [buildSyntheticSeries, buildSyntheticGo_length]
        · simp [buildSyntheticSeries, buildSyntheticGo_times]
        · intro i h1 h2
          match i with
          | Nat.succ j =>
              simp only [buildSyntheticSeries, List.getD_cons_succ, Nat.succ_sub_one]
              have hj : j < rest.length := by simpa using h2
              have := buildSyntheticGo_rec (k : ℚ) rest p0.value (Option.getD (some b) 100) j hj
              match j with
              | 0 => simpa using this
              | Nat.succ j2 =>
                  simp only [Nat.succ_sub_one] at this ⊢
                  simpa using this
  · show buildSyntheticSeries [⟨0, 100⟩, ⟨1, 110⟩, ⟨2, 99⟩] 2 (some 100) = _
    simp only [buildSyntheticSeries, buildSyntheticGo, Option.getD]
    norm_num [List.filterMap_cons]

/-- Witness for C1 at a concrete series discharging the hypotheses. -/
theorem C1_witness :
    (([⟨0, 100⟩, ⟨1, 110⟩, ⟨2, 99⟩] : List PricePoint) ≠ [] →
      ((buildSyntheticSeries [⟨0, 100⟩, ⟨1, 110⟩, ⟨2, 99⟩] ((2 : ℤ) : ℚ) (some 100)).getD 0
        ⟨0, 0⟩).value = 100) ∧
    ((buildSyntheticSeries [⟨0, 100⟩, ⟨1, 110⟩, ⟨2, 99⟩] ((2 : ℤ) : ℚ) (some 100)).getD 2
        ⟨0, 0⟩).value =
      ((buildSyntheticSeries [⟨0, 100⟩, ⟨1, 110⟩, ⟨2, 99⟩] ((2 : ℤ) : ℚ) (some 100)).getD 1
        ⟨0, 0⟩).value *
        (1 + ((2 : ℤ) : ℚ) * simpleReturn 110 99) := by
  refine ⟨(C1_buildSyntheticSeries_correct.1 [⟨0, 100⟩, ⟨1, 110⟩, ⟨2, 99⟩] 2 100).2.2.1, ?_⟩
  have h := (C1_buildSyntheticSeries_correct.1 [⟨0, 100⟩, ⟨1, 110⟩, ⟨2, 99⟩] 2 100).2.2.2 2
    (by omega) (by simp)
  simpa using h

/-- Claim C7 counterexample: a non-number base yields first value 100, not 0. -/
theorem C7_counterexample :
    ((buildSyntheticSeries [⟨0, 5⟩] 1 none).getD 0 ⟨0, 0⟩).value = 100 ∧
    ¬ ((buildSyntheticSeries [⟨0, 5⟩] 1 none).getD 0 ⟨0, 0⟩).value = 0 := by
  refine ⟨rfl, ?_⟩
  intro h
  simp [buildSyntheticSeries, Option.getD] at h

/-- Claim C7 (amended): a base of non-number type falls back to the default 100, so the
    first output value of any non-empty series is 100. -/
theorem C7_nonNumericBase_defaults_to_100 (spx : List PricePoint) (k : ℚ) (h : spx ≠ []) :
    ((buildSyntheticSeries spx k none).getD 0 ⟨0, 0⟩).value = 100 := by
  match spx with
  | [] => exact absurd rfl h
  | p :: rest => rfl

/-- Witness for the amended C7 at a concrete series. -/
theorem C7_witness :
    ([⟨0, 5⟩] : List PricePoint) ≠ [] ∧
    ((buildSyntheticSeries [⟨0, 5⟩] 1 none).getD 0 ⟨0, 0⟩).value = 100 :=
  ⟨by simp, C7_nonNumericBase_defaults_to_100 [⟨0, 5⟩] 1 (by simp)⟩

/-- Proxy series construction from api/spx.js: pair each UNIX-second timestamp
    (scaled to milliseconds) with the same-index close, then drop pairs whose
    close is not a finite number. -/
def proxySeries (ts : List ℚ) (close : List (Option ℚ)) : List PricePoint :=
  ((ts.enum.map (fun p => (p.2 * 1000, close.getD p.1 none))).filterMap
    (fun q => q.2.map (fun v => PricePoint.mk q.1 v)))

theorem proxySeries_enumFrom (close : List (Option ℚ)) :
    ∀ (ts : List ℚ) (i0 : ℕ),
      ((ts.enumFrom i0).map (fun p => (p.2 * 1000, close.getD p.1 none))).filterMap
          (fun q => q.2.map (fun v => PricePoint.mk q.1 v)) =
        (List.range ts.length).filterMap
          (fun j => (close.getD (i0 + j) none).map
            (fun v => PricePoint.mk (ts.getD j 0 * 1000) v)) := by
  intro ts
  induction ts with
  | nil => intro i0; rfl
  | cons t rest ih =>
      intro i0
      have ih2 := ih (i0 + 1)
      rw [List.filterMap_map] at ih2
      simp only [List.enumFrom, List.map_cons, List.filterMap_cons, List.length_cons,
        List.range_succ_eq_map, List.filterMap_map, Nat.add_zero, List.getD_cons_zero]
      rw [ih2]
      have hcong :
          (List.range rest.length).filterMap
              ((fun j => (close.getD (i0 + j) none).map
                (fun v => PricePoint.mk ((t :: rest).getD j 0 * 1000) v)) ∘ Nat.succ) =
            (List.range rest.length).filterMap
              (fun j => (close.getD (i0 + 1 + j) none).map
                (fun v => PricePoint.mk (rest.getD j 0 * 1000) v)) := by
        apply List.filterMap_congr
        intro j hj
        simp only [Function.comp_apply, List.getD_cons_succ]
        have harith : i0 + Nat.succ j = i0 + 1 + j := by omega
        rw [harith]
      rw [hcong]

/-- Claim C9: the proxy pairs each timestamp (seconds, scaled by 1000) with its same-index
    close in order, dropping non-finite closes; timestamps [1000, 2000] with closes
    [50, NaN] yield exactly [(1000000, 50)]. -/
theorem C9_proxySeries_correct :
    (∀ (ts : List ℚ) (close : List (Option ℚ)),
      proxySeries ts close =
        (List.range ts.length).filterMap
          (fun j => (close.getD j none).map
            (fun v => PricePoint.mk (ts.getD j 0 * 1000) v))) ∧
    proxySeries [1000, 2000] [some 50, none] = [⟨1000000, 50⟩] := by
  constructor
  · intro ts close
    unfold proxySeries
    have h := proxySeries_enumFrom close ts 0
    simp only [List.enum] at h ⊢
    rw [h]
    apply List.filterMap_congr
    intro j hj
    simp
  · show ((([(0, (1000 : ℚ)), (1, 2000)].map (fun p => (p.2 * 1000, [some (50 : ℚ), none].getD p.1 none))).filterMap
      (fun q => q.2.map (fun v => PricePoint.mk q.1 v)))) = [⟨1000000, 50⟩]
    norm_num [List.filterMap_cons]


/-- Cursor pixel to timestamp under a domain, as computed in onWheel and
    onPointerMove of LiveSP500Canvas.jsx (width 1200, left pad 40, right margin 90). -/
def tAtCursor (dom : ℚ × ℚ) (px : ℚ) : ℚ :=
  dom.1 + (px - 40) / max 1 (1200 - 40 - 90) * (dom.2 - dom.1)

/-- Domain update of the onWheel handler, parametrized by the zoom scale
    (the source computes scale = exp(direction * 0.2), a transcendental constant;
    it enters the update only through this value). -/
def wheelUpdate (full dom : ℚ × ℚ) (px scale : ℚ) : ℚ × ℚ :=
  let c := tAtCursor dom px
  let newX0 := c - (c - dom.1) * scale
  let newX1 := c + (dom.2 - c) * scale
  let minSpan := (full.2 - full.1) / 500
  (max full.1 (min newX0 (newX1 - minSpan)), min full.2 (max newX1 (newX0 + minSpan)))

/-- Domain update of the pan branch of onPointerMove: shift both edges by the
    pixel delta converted to time, enforce the minimum span, then clamp to the
    full extent preserving the span. -/
def panUpdate (full start : ℚ × ℚ) (dxPx : ℚ) : ℚ × ℚ :=
  let span := start.2 - start.1
  let dt := -dxPx / max 1 (1200 - 40 - 90) * span
  let x0 := start.1 + dt
  let x1 := start.2 + dt
  let spanMin := (full.2 - full.1) / 1000
  let x1b := if x1 - x0 < spanMin then x0 + spanMin else x1
  let p2 := if x0 < full.1 then (full.1, x1b + (full.1 - x0)) else (x0, x1b)
  if p2.2 > full.2 then (p2.1 - (p2.2 - full.2), full.2) else p2

theorem maxW_eq : (max 1 (1200 - 40 - 90) : ℚ) = 1070 := by norm_num

theorem clamp_resolve (f0 f1 A B : ℚ) (h0 : f0 ≤ A) (h1 : B ≤ f1)
    (h2 : A + (f1 - f0) / 500 ≤ B) :
    (max f0 (min A (B - (f1 - f0) / 500)), min f1 (max B (A + (f1 - f0) / 500))) = (A, B) := by
  rw [min_eq_left (by linarith), max_eq_right h0, max_eq_left (by linarith), min_eq_right h1]

/-- Claim C2: zooming in by scale s and back out by scale 1/s at the same cursor pixel
    inside the plot band restores the domain exactly, provided the domain lies in
    the full extent and its span is at least 1/s times the minimum zoom span. -/
theorem C2_wheel_roundtrip (full dom : ℚ × ℚ) (px s : ℚ)
    (hs0 : 0 < s) (hs1 : s < 1)
    (hf0 : full.1 ≤ dom.1) (hf1 : dom.2 ≤ full.2) (hdom : dom.1 < dom.2)
    (hpx0 : 40 ≤ px) (hpx1 : px ≤ 1110)
    (hspan : (1 / s) * ((full.2 - full.1) / 500) ≤ dom.2 - dom.1) :
    wheelUpdate full (wheelUpdate full dom px s) px (1 / s) = dom := by
  obtain ⟨x0, x1⟩ := dom
  obtain ⟨f0, f1⟩ := full
  simp only at hf0 hf1 hdom hspan
  have hsne : s ≠ 0 := ne_of_gt hs0
  set r : ℚ := (px - 40) / 1070 with hr
  have hr0 : 0 ≤ r := div_nonneg (by linarith) (by norm_num)
  have hr1 : r ≤ 1 := by
    rw [hr, div_le_one (by norm_num)]
    linarith
  have hspan0 : (0 : ℚ) < x1 - x0 := by linarith
  have hm : (f1 - f0) / 500 ≤ s * (x1 - x0) := by
    have h2 := mul_le_mul_of_nonneg_left hspan hs0.le
    have h3 : s * (1 / s * ((f1 - f0) / 500)) = (f1 - f0) / 500 := by
      field_simp
      ring
    linarith [h2, h3.symm.le]
  have hmpos : (0 : ℚ) < (f1 - f0) / 500 := div_pos (by linarith) (by norm_num)
  set c : ℚ := x0 + r * (x1 - x0) with hcdef
  have hc : tAtCursor (x0, x1) px = c := by
    show (x0, x1).1 + (px - 40) / max 1 (1200 - 40 - 90) * ((x0, x1).2 - (x0, x1).1) = c
    rw [maxW_eq, hcdef, hr]
  have hcx0 : x0 ≤ c := by
    rw [hcdef]
    nlinarith [mul_nonneg hr0 hspan0.le]
  have hcx1 : c ≤ x1 := by
    rw [hcdef]
    nlinarith [mul_nonneg (by linarith : (0:ℚ) ≤ 1 - r) hspan0.le]
  have hA0 : x0 ≤ c - (c - x0) * s := by
    nlinarith [mul_nonneg (by linarith : (0:ℚ) ≤ c - x0) (by linarith : (0:ℚ) ≤ 1 - s)]
  have hB1 : c + (x1 - c) * s ≤ x1 := by
    nlinarith [mul_nonneg (by linarith : (0:ℚ) ≤ x1 - c) (by linarith : (0:ℚ) ≤ 1 - s)]
  have hAB : (c - (c - x0) * s) + (f1 - f0) / 500 ≤ c + (x1 - c) * s := by
    have : (c + (x1 - c) * s) - (c - (c - x0) * s) = s * (x1 - x0) := by ring
    linarith
  have hfirst : wheelUpdate (f0, f1) (x0, x1) px s = (c - (c - x0) * s, c + (x1 - c) * s) := by
    unfold wheelUpdate
    rw [hc]
    dsimp only
    exact clamp_resolve f0 f1 _ _ (by linarith) (by linarith) hAB
  rw [hfirst]
  have hc2 : tAtCursor (c - (c - x0) * s, c + (x1 - c) * s) px = c := by
    unfold tAtCursor
    rw [maxW_eq]
    dsimp only
    rw [← hr, hcdef]
    ring
  unfold wheelUpdate
  rw [hc2]
  dsimp only
  have hb0 : c - (c - (c - (c - x0) * s)) * (1 / s) = x0 := by
    field_simp
  have hb1 : c + ((c + (x1 - c) * s) - c) * (1 / s) = x1 := by
    field_simp
  rw [hb0, hb1]
  have hx01 : x0 + (f1 - f0) / 500 ≤ x1 := by
    have hgrow : (f1 - f0) / 500 ≤ 1 / s * ((f1 - f0) / 500) := by
      have hinv : (1 : ℚ) ≤ 1 / s := by
        rw [le_div_iff₀ hs0]
        linarith
      nlinarith
    linarith
  exact clamp_resolve f0 f1 x0 x1 hf0 hf1 hx01

/-- Wheel-zoom invariant for cursor pixels inside the plot band: the updated
    domain stays inside the full extent and keeps x0 < x1, for any positive scale. -/
theorem wheelUpdate_invariant (full dom : ℚ × ℚ) (px s : ℚ)
    (hs0 : 0 < s)
    (hpx0 : 40 ≤ px) (hpx1 : px ≤ 1110)
    (hf0 : full.1 ≤ dom.1) (hdom : dom.1 < dom.2) (hf1 : dom.2 ≤ full.2) :
    full.1 ≤ (wheelUpdate full dom px s).1 ∧
    (wheelUpdate full dom px s).1 < (wheelUpdate full dom px s).2 ∧
    (wheelUpdate full dom px s).2 ≤ full.2 := by
  obtain ⟨x0, x1⟩ := dom
  obtain ⟨f0, f1⟩ := full
  simp only at hf0 hf1 hdom
  set r : ℚ := (px - 40) / 1070 with hr
  have hr0 : 0 ≤ r := div_nonneg (by linarith) (by norm_num)
  have hr1 : r ≤ 1 := by
    rw [hr, div_le_one (by norm_num)]
    linarith
  have hspan0 : (0 : ℚ) < x1 - x0 := by linarith
  set c : ℚ := x0 + r * (x1 - x0) with hcdef
  have hc : tAtCursor (x0, x1) px = c := by
    show (x0, x1).1 + (px - 40) / max 1 (1200 - 40 - 90) * ((x0, x1).2 - (x0, x1).1) = c
    rw [maxW_eq, hcdef, hr]
  have hcx0 : x0 ≤ c := by
    rw [hcdef]
    nlinarith [mul_nonneg hr0 hspan0.le]
  have hcx1 : c ≤ x1 := by
    rw [hcdef]
    nlinarith [mul_nonneg (by linarith : (0:ℚ) ≤ 1 - r) hspan0.le]
  have hmpos : (0 : ℚ) < (f1 - f0) / 500 := div_pos (by linarith) (by norm_num)
  have hAc : c - (c - x0) * s ≤ c := by
    nlinarith [mul_nonneg (by linarith : (0:ℚ) ≤ c - x0) hs0.le]
  have hcB : c ≤ c + (x1 - c) * s := by
    nlinarith [mul_nonneg (by linarith : (0:ℚ) ≤ x1 - c) hs0.le]
  have hBf0 : f0 < c + (x1 - c) * s := by
    rcases lt_or_eq_of_le hcx0 with h | h
    · linarith
    · nlinarith [mul_pos (by linarith : (0:ℚ) < x1 - c) hs0]
  have hAf1 : c - (c - x0) * s < f1 := by
    rcases lt_or_eq_of_le hcx1 with h | h
    · linarith
    · nlinarith [mul_pos (by linarith : (0:ℚ) < c - x0) hs0]
  have hout : wheelUpdate (f0, f1) (x0, x1) px s =
      (max f0 (min (c - (c - x0) * s) ((c + (x1 - c) * s) - (f1 - f0) / 500)),
       min f1 (max (c + (x1 - c) * s) ((c - (c - x0) * s) + (f1 - f0) / 500))) := by
    unfold wheelUpdate
    rw [hc]
  rw [hout]
  refine ⟨le_max_left _ _, ?_, min_le_left _ _⟩
  refine lt_min (max_lt (by linarith) (min_lt_iff.mpr (Or.inl hAf1)))
    (max_lt (lt_max_iff.mpr (Or.inl hBf0)) ?_)
  calc (c - (c - x0) * s) ⊓ (c + (x1 - c) * s - (f1 - f0) / 500)
      ≤ c + (x1 - c) * s - (f1 - f0) / 500 := min_le_right _ _
    _ < c + (x1 - c) * s := by linarith
    _ ≤ (c + (x1 - c) * s) ⊔ (c - (c - x0) * s + (f1 - f0) / 500) := le_max_left _ _

/-- Pan invariant: for any pixel delta, the shifted-and-clamped domain stays
    inside the full extent with x0 < x1. -/
theorem panUpdate_invariant (full start : ℚ × ℚ) (dxPx : ℚ)
    (hf0 : full.1 ≤ start.1) (hdom : start.1 < start.2) (hf1 : start.2 ≤ full.2) :
    full.1 ≤ (panUpdate full start dxPx).1 ∧
    (panUpdate full start dxPx).1 < (panUpdate full start dxPx).2 ∧
    (panUpdate full start dxPx).2 ≤ full.2 := by
  obtain ⟨s1, s2⟩ := start
  obtain ⟨f0, f1⟩ := full
  simp only at hf0 hf1 hdom
  have hff : f0 < f1 := by linarith
  have hsm : (0 : ℚ) < (f1 - f0) / 1000 := div_pos (by linarith) (by norm_num)
  have hsmle : (f1 - f0) / 1000 ≤ f1 - f0 := by linarith
  unfold panUpdate
  dsimp only
  set dt : ℚ := -dxPx / (max 1 (1200 - 40 - 90) : ℚ) * (s2 - s1) with hdt
  split_ifs with h1 h2 h3 h4 h5 h6 <;> constructor <;> try constructor
  all_goals dsimp only at *
  all_goals linarith

/-- Panning leftward with the left edge already at the full extent clamps:
    x0 stays at full.1 and the span is preserved. -/
theorem panUpdate_left_clamp (full start : ℚ × ℚ) (dxPx : ℚ)
    (hedge : start.1 = full.1) (hdx : 0 ≤ dxPx) (hdom : start.1 < start.2)
    (hf1 : start.2 ≤ full.2)
    (hsm : (full.2 - full.1) / 1000 ≤ start.2 - start.1) :
    panUpdate full start dxPx = (full.1, full.1 + (start.2 - start.1)) := by
  obtain ⟨s1, s2⟩ := start
  obtain ⟨f0, f1⟩ := full
  simp only at hedge hf1 hdom hsm ⊢
  unfold panUpdate
  dsimp only
  rw [maxW_eq]
  set dt : ℚ := -dxPx / 1070 * (s2 - s1) with hdt
  have hdt0 : dt ≤ 0 := by
    rw [hdt]
    apply mul_nonpos_of_nonpos_of_nonneg
    · apply div_nonpos_of_nonpos_of_nonneg <;> linarith
    · linarith
  split_ifs with h1 h2 h3 h4 h5
  all_goals dsimp only at *
  all_goals
    first
      | (exfalso; linarith)
      | (rw [Prod.mk.injEq]; exact ⟨by linarith, by linarith⟩)

/-- Claim C5 counterexample: a wheel event with the cursor far right of the
    plot band produces an inverted domain, violating x0 < x1. -/
theorem C5_counterexample :
    wheelUpdate (0, 1000) (0, 1000) 6460 (4 / 5) = (1200, 1000) ∧
    ¬ ((1200 : ℚ) < 1000) := by
  constructor
  · unfold wheelUpdate tAtCursor
    norm_num
  · norm_num

/-! Axis/scale engine of useChartPath in LiveSP500Canvas.jsx. Pixel x-geometry
    stays rational; value transforms pass through the reals since log mode uses
    the natural logarithm. The tick-label strings (locale-dependent) and the
    x-label minimum-gap selection are presentation-only and not modelled. -/

/-- Result record of useChartPath. The SVG path string is modelled as its list
    of (x, y) points. -/
structure ChartGeometry where
  path : List (ℚ × ℝ)
  xTicks : List (ℚ × ℚ)
  yTicks : List (ℝ × ℝ)
  xScale : ℚ → ℚ
  yScale : ℝ → ℝ
  last : Option PricePoint
  anchor : ℚ

/-- Clamped visible slice; falls back to the whole series when empty. -/
def sliceOf (data : List PricePoint) (xMin xMax : ℚ) : List PricePoint :=
  let s := data.filter (fun d => decide (xMin ≤ d.time) && decide (d.time ≤ xMax))
  if s.isEmpty then data else s

/-- Anchor: value of the first visible point (callers pass a non-empty slice). -/
def anchorOf (slice : List PricePoint) : ℚ := (slice.headD ⟨0, 0⟩).value

/-- Value transform tf selected by yMode: natural log only when every visible
    value is positive, percent relative to the anchor, identity otherwise. -/
noncomputable def tfOf (yMode : String) (values : List ℚ) (anchor : ℚ) : ℝ → ℝ :=
  if yMode = "log" ∧ ∀ v ∈ values, 0 < v then fun v => Real.log v
  else if yMode = "percent" then
    fun v => (v / max (1 / 1000000000) (anchor : ℝ) - 1) * 100
  else fun v => v

/-- Matching inverse transform invf. -/
noncomputable def invfOf (yMode : String) (values : List ℚ) (anchor : ℚ) : ℝ → ℝ :=
  if yMode = "log" ∧ ∀ v ∈ values, 0 < v then fun v => Real.exp v
  else if yMode = "percent" then
    fun p => max (1 / 1000000000) (anchor : ℝ) * (1 + p / 100)
  else fun v => v

/-- Minimum of the transformed values; on the empty list the source's
    Math.min.apply gives Infinity which the Number.isFinite guard replaces by 0
    (exact reals are always finite, so that guard has no other effect). -/
noncomputable def listMin : List ℝ → ℝ
  | [] => 0
  | x :: xs => xs.foldl min x

/-- Maximum of the transformed values; the empty-list default 1 encodes the
    Number.isFinite replacement as for listMin. -/
noncomputable def listMax : List ℝ → ℝ
  | [] => 1
  | x :: xs => xs.foldl max x

/-- Transformed-range processing: expand a degenerate min = max range by one in
    both directions, then pad both ends by 10 percent. -/
noncomputable def boundsOf (tVals : List ℝ) : ℝ × ℝ :=
  let tMin := listMin tVals
  let tMax := listMax tVals
  let p := if tMin = tMax then (tMin - 1, tMax + 1) else (tMin, tMax)
  let pad := (p.2 - p.1) * (1 / 10)
  (p.1 - pad, p.2 + pad)

/-- Linear pixel map for timestamps, denominator guarded below by 1. -/
def xScaleOf (padLeft width rightMargin xMin xMax : ℚ) : ℚ → ℚ :=
  fun t => padLeft + (t - xMin) / max 1 (xMax - xMin) * (width - padLeft - rightMargin)

/-- Inverted linear pixel map for transformed values, denominator guarded below
    by 1e-9. -/
noncomputable def yScaleOf (height padLeft : ℚ) (tf : ℝ → ℝ) (tMin tMax : ℝ) : ℝ → ℝ :=
  fun v => (height : ℝ) - (padLeft : ℝ) -
    (tf v - tMin) / max (1 / 1000000000) (tMax - tMin) * ((height : ℝ) - 2 * (padLeft : ℝ))

/-- Tick loop: advance from the aligned start by one interval while within xMax,
    guarded by the source's hard iteration bound of 5000. -/
def xTicksGo (interval : String) (xMax : ℚ) (xScale : ℚ → ℚ) : ℕ → ℤ → List (ℚ × ℚ)
  | 0, _ => []
  | fuel + 1, t =>
      if (t : ℚ) ≤ xMax then
        (xScale (t : ℚ), (t : ℚ)) :: xTicksGo interval xMax xScale fuel (addInterval t interval)
      else []

/-- X ticks with the force-insertion of xMin and xMax when fewer than 2 result. -/
def xTicksOf (interval : String) (xMin xMax : ℚ) (xScale : ℚ → ℚ) : List (ℚ × ℚ) :=
  let base := xTicksGo interval xMax xScale 5000 (alignToInterval xMin interval)
  if base.length < 2 then base ++ [(xScale xMin, xMin), (xScale xMax, xMax)] else base

/-- Six evenly spaced y ticks over the padded transformed range, carrying the
    raw (inverse-transformed) value in place of its formatted label. -/
noncomputable def yTicksOf (height padLeft : ℚ) (invf : ℝ → ℝ) (tMin tMax : ℝ) :
    List (ℝ × ℝ) :=
  (List.range 6).map (fun j =>
    ((height : ℝ) - (padLeft : ℝ) -
      ((tMin + (tMax - tMin) / (6 - 1) * (j : ℝ)) - tMin) / max (1 / 1000000000) (tMax - tMin) *
        ((height : ℝ) - 2 * (padLeft : ℝ)),
     invf (tMin + (tMax - tMin) / (6 - 1) * (j : ℝ))))

/-- Core geometry of useChartPath: empty data yields the inert record, otherwise
    clamp, slice, transform, scale, path and ticks as in the source. -/
noncomputable def computeGeometry (data : List PricePoint) (width height padLeft : ℚ)
    (interval : String) (domain : ℚ × ℚ) (yMode : String) (rightMargin : ℚ) : ChartGeometry :=
  match data with
  | [] =>
      { path := [], xTicks := [], yTicks := [],
        xScale := fun t => t, yScale := fun v => v, last := none, anchor := 0 }
  | p0 :: _ =>
      let xMin := max domain.1 p0.time
      let xMax := min domain.2 (data.getLastD ⟨0, 0⟩).time
      let slice := sliceOf data xMin xMax
      let anchor := anchorOf slice
      let values := slice.map PricePoint.value
      let tf := tfOf yMode values anchor
      let invf := invfOf yMode values anchor
      let tVals := values.map (fun v => tf (v : ℝ))
      let bounds := boundsOf tVals
      let xScale := xScaleOf padLeft width rightMargin xMin xMax
      let yScale := yScaleOf height padLeft tf bounds.1 bounds.2
      { path := slice.map (fun p => (xScale p.time, yScale (p.value : ℝ))),
        xTicks := xTicksOf interval xMin xMax xScale,
        yTicks := yTicksOf height padLeft invf bounds.1 bounds.2,
        xScale := xScale, yScale := yScale,
        last := slice.getLast?, anchor := anchor }

theorem xTicksOf_length (interval : String) (xMin xMax : ℚ) (xScale : ℚ → ℚ) :
    2 ≤ (xTicksOf interval xMin xMax xScale).length := by
  unfold xTicksOf
  dsimp only
  split_ifs with h
  · rw [List.length_append]
    simp only [List.length_cons, List.length_singleton]
    omega
  · omega

/-- Geometry of a non-empty series always carries at least two x ticks. -/
theorem computeGeometry_xTicks_two (data : List PricePoint) (width height padLeft : ℚ)
    (interval : String) (domain : ℚ × ℚ) (yMode : String) (rightMargin : ℚ)
    (h : data ≠ []) :
    2 ≤ (computeGeometry data width height padLeft interval domain yMode rightMargin).xTicks.length := by
  match data with
  | [] => exact absurd rfl h
  | p0 :: rest =>
      show 2 ≤ (xTicksOf interval _ _ _).length
      exact xTicksOf_length _ _ _ _

/-! Crosshair of onPointerMove: scan the series for the in-domain point nearest
    in time to the cursor's mapped timestamp (strict improvement keeps the
    earliest on ties), starting from synth[0] with an infinite best distance. -/

def crossGo (dom : ℚ × ℚ) (ts : ℚ) : List PricePoint → PricePoint → WithTop ℚ → PricePoint
  | [], nearest, _ => nearest
  | p :: rest, nearest, best =>
      if p.time < dom.1 ∨ dom.2 < p.time then crossGo dom ts rest nearest best
      else if ((|p.time - ts| : ℚ) : WithTop ℚ) < best then
        crossGo dom ts rest p ((|p.time - ts| : ℚ) : WithTop ℚ)
      else crossGo dom ts rest nearest best

/-- Crosshair snap of onPointerMove (the source guards on synth.length, so the
    empty case is inert). -/
def crossNearest (synth : List PricePoint) (dom : ℚ × ℚ) (ts : ℚ) : PricePoint :=
  match synth with
  | [] => ⟨0, 0⟩
  | p0 :: _ => crossGo dom ts synth p0 ⊤

/-- Crosshair state exposed for display: pixel position, timestamp and value of
    the snapped point. -/
structure Crosshair where
  x : ℚ
  y : ℝ
  ts : ℚ
  price : ℚ

/-- Crosshair record as set by onPointerMove via the chart's scales. -/
noncomputable def crossOf (chart : ChartGeometry) (synth : List PricePoint) (dom : ℚ × ℚ)
    (px : ℚ) : Crosshair :=
  let p := crossNearest synth dom (tAtCursor dom px)
  ⟨chart.xScale p.time, chart.yScale (p.value : ℝ), p.time, p.value⟩

theorem crossGo_notfound (dom : ℚ × ℚ) (ts : ℚ) :
    ∀ (l : List PricePoint) (nearest : PricePoint) (best : WithTop ℚ),
      (∀ q ∈ l, dom.1 ≤ q.time → q.time ≤ dom.2 →
        ¬ (((|q.time - ts| : ℚ) : WithTop ℚ) < best)) →
      crossGo dom ts l nearest best = nearest := by
  intro l
  induction l with
  | nil => intro nearest best h; rfl
  | cons p rest ih =>
      intro nearest best h
      unfold crossGo
      by_cases hs : p.time < dom.1 ∨ dom.2 < p.time
      · rw [if_pos hs]
        exact ih nearest best (fun q hq => h q (List.mem_cons_of_mem p hq))
      · rw [if_neg hs]
        push_neg at hs
        rw [if_neg (h p (List.mem_cons_self p rest) hs.1 hs.2)]
        exact ih nearest best (fun q hq => h q (List.mem_cons_of_mem p hq))

theorem crossGo_found (dom : ℚ × ℚ) (ts : ℚ) :
    ∀ (l : List PricePoint) (nearest : PricePoint) (best : WithTop ℚ),
      (∃ q ∈ l, (dom.1 ≤ q.time ∧ q.time ≤ dom.2) ∧
        ((|q.time - ts| : ℚ) : WithTop ℚ) < best) →
      crossGo dom ts l nearest best ∈ l ∧
      dom.1 ≤ (crossGo dom ts l nearest best).time ∧
      (crossGo dom ts l nearest best).time ≤ dom.2 ∧
      (∀ q ∈ l, dom.1 ≤ q.time → q.time ≤ dom.2 →
        |(crossGo dom ts l nearest best).time - ts| ≤ |q.time - ts|) ∧
      ((|(crossGo dom ts l nearest best).time - ts| : ℚ) : WithTop ℚ) < best ∧
      ∃ l1 l2, l = l1 ++ crossGo dom ts l nearest best :: l2 ∧
        ∀ q ∈ l1, dom.1 ≤ q.time → q.time ≤ dom.2 →
          |(crossGo dom ts l nearest best).time - ts| < |q.time - ts| := by
  intro l
  induction l with
  | nil =>
      intro nearest best h
      obtain ⟨q, hq, _⟩ := h
      exact absurd hq (List.not_mem_nil q)
  | cons p rest ih =>
      intro nearest best h
      by_cases hs : p.time < dom.1 ∨ dom.2 < p.time
      · -- p is outside the domain and is skipped
        have hstep : crossGo dom ts (p :: rest) nearest best = crossGo dom ts rest nearest best := by
          rw [crossGo, if_pos hs]
        obtain ⟨q, hq, hqdom, hqlt⟩ := h
        have hqrest : q ∈ rest := by
          rcases List.mem_cons.mp hq with heq | hmem
          · exfalso
            rw [← heq] at hs
            rcases hs with h1 | h1 <;> linarith [hqdom.1, hqdom.2]
          · exact hmem
        obtain ⟨hmem, hd1, hd2, hmin, hlt, l1, l2, hsplit, hearly⟩ :=
          ih nearest best ⟨q, hqrest, hqdom, hqlt⟩
        rw [hstep]
        refine ⟨List.mem_cons_of_mem p hmem, hd1, hd2, ?_, hlt, p :: l1, l2, ?_, ?_⟩
        · intro r hr h1 h2
          rcases List.mem_cons.mp hr with heq | hmem2
          · exfalso
            rw [← heq] at hs
            rcases hs with h3 | h3 <;> linarith
          · exact hmin r hmem2 h1 h2
        · rw [List.cons_append, ← hsplit]
        · intro r hr h1 h2
          rcases List.mem_cons.mp hr with heq | hmem2
          · exfalso
            rw [← heq] at hs
            rcases hs with h3 | h3 <;> linarith
          · exact hearly r hmem2 h1 h2
      · push_neg at hs
        by_cases hb : ((|p.time - ts| : ℚ) : WithTop ℚ) < best
        · -- p becomes the running nearest
          have hstep : crossGo dom ts (p :: rest) nearest best =
              crossGo dom ts rest p ((|p.time - ts| : ℚ) : WithTop ℚ) := by
            rw [crossGo, if_neg (by push_neg; exact hs), if_pos hb]
          rw [hstep]
          by_cases hx : ∃ q ∈ rest, (dom.1 ≤ q.time ∧ q.time ≤ dom.2) ∧
              ((|q.time - ts| : ℚ) : WithTop ℚ) < ((|p.time - ts| : ℚ) : WithTop ℚ)
          · obtain ⟨hmem, hd1, hd2, hmin, hlt, l1, l2, hsplit, hearly⟩ :=
              ih p ((|p.time - ts| : ℚ) : WithTop ℚ) hx
            have hltq : |(crossGo dom ts rest p ((|p.time - ts| : ℚ) : WithTop ℚ)).time - ts|
                < |p.time - ts| := WithTop.coe_lt_coe.mp hlt
            refine ⟨List.mem_cons_of_mem p hmem, hd1, hd2, ?_, lt_trans hlt hb,
              p :: l1, l2, ?_, ?_⟩
            · intro r hr h1 h2
              rcases List.mem_cons.mp hr with heq | hmem2
              · rw [heq]; exact le_of_lt hltq
              · exact hmin r hmem2 h1 h2
            · rw [List.cons_append, ← hsplit]
            · intro r hr h1 h2
              rcases List.mem_cons.mp hr with heq | hmem2
              · rw [heq]; exact hltq
              · exact hearly r hmem2 h1 h2
          · push_neg at hx
            have hnf : crossGo dom ts rest p ((|p.time - ts| : ℚ) : WithTop ℚ) = p := by
              apply crossGo_notfound
              intro q hq h1 h2
              exact not_lt.mpr (hx q hq ⟨h1, h2⟩)
            rw [hnf]
            refine ⟨List.mem_cons_self p rest, hs.1, hs.2, ?_, hb, [], rest, ?_, ?_⟩
            · intro r hr h1 h2
              rcases List.mem_cons.mp hr with heq | hmem2
              · rw [heq]
              · exact WithTop.coe_le_coe.mp (hx r hmem2 ⟨h1, h2⟩)
            · rfl
            · intro r hr
              exact absurd hr (List.not_mem_nil r)
        · -- p does not improve the running best
          have hstep : crossGo dom ts (p :: rest) nearest best =
              crossGo dom ts rest nearest best := by
            rw [crossGo, if_neg (by push_neg; exact hs), if_neg hb]
          rw [hstep]
          obtain ⟨q, hq, hqdom, hqlt⟩ := h
          have hqrest : q ∈ rest := by
            rcases List.mem_cons.mp hq with heq | hmem
            · exfalso
              rw [heq] at hqlt
              exact hb hqlt
            · exact hmem
          obtain ⟨hmem, hd1, hd2, hmin, hlt, l1, l2, hsplit, hearly⟩ :=
            ih nearest best ⟨q, hqrest, hqdom, hqlt⟩
          have hbest_le : best ≤ ((|p.time - ts| : ℚ) : WithTop ℚ) := le_of_not_lt hb
          have hres_lt : ((|(crossGo dom ts rest nearest best).time - ts| : ℚ) : WithTop ℚ)
              < ((|p.time - ts| : ℚ) : WithTop ℚ) := lt_of_lt_of_le hlt hbest_le
          have hres_ltq : |(crossGo dom ts rest nearest best).time - ts| < |p.time - ts| :=
            WithTop.coe_lt_coe.mp hres_lt
          refine ⟨List.mem_cons_of_mem p hmem, hd1, hd2, ?_, hlt, p :: l1, l2, ?_, ?_⟩
          · intro r hr h1 h2
            rcases List.mem_cons.mp hr with heq | hmem2
            · rw [heq]; exact le_of_lt hres_ltq
            · exact hmin r hmem2 h1 h2
          · rw [List.cons_append, ← hsplit]
          · intro r hr h1 h2
            rcases List.mem_cons.mp hr with heq | hmem2
            · rw [heq]; exact hres_ltq
            · exact hearly r hmem2 h1 h2

/-- Claim C3 counterexample: for the empty input series the geometry has no
    x ticks at all, so the at-least-2 bound fails. -/
theorem C3_counterexample :
    (computeGeometry [] 1200 640 40 "60" (0, 1) "linear" 90).xTicks.length = 0 ∧
    ¬ (2 ≤ (computeGeometry [] 1200 640 40 "60" (0, 1) "linear" 90).xTicks.length) := by
  refine ⟨rfl, ?_⟩
  intro hcon
  simp only [computeGeometry, List.length_nil] at hcon
  omega

/-- Claim C3 (amended): for every non-empty series and every domain with
    x0 < x1 the geometry carries at least two x ticks, by the interval loop
    under its 5000-iteration guard plus the force-insertion of xMin and xMax. -/
theorem C3_xTicks_at_least_two (data : List PricePoint) (width height padLeft : ℚ)
    (interval : String) (domain : ℚ × ℚ) (yMode : String) (rightMargin : ℚ)
    (hne : data ≠ []) (hdom : domain.1 < domain.2) :
    2 ≤ (computeGeometry data width height padLeft interval domain yMode rightMargin).xTicks.length :=
  computeGeometry_xTicks_two data width height padLeft interval domain yMode rightMargin hne

/-- Witness for the amended C3 at a concrete series and domain. -/
theorem C3_witness :
    ([⟨0, 1⟩] : List PricePoint) ≠ [] ∧ (0 : ℚ) < 1 ∧
    2 ≤ (computeGeometry [⟨0, 1⟩] 1200 640 40 "60" (0, 1) "linear" 90).xTicks.length :=
  ⟨by simp, by norm_num,
    C3_xTicks_at_least_two [⟨0, 1⟩] 1200 640 40 "60" (0, 1) "linear" 90 (by simp) (by norm_num)⟩

/-- Visible values of the clamped slice, as consumed by the transform selection
    of useChartPath. -/
def visibleValues (data : List PricePoint) (domain : ℚ × ℚ) : List ℚ :=
  (sliceOf data (max domain.1 ((data.headD ⟨0, 0⟩).time))
    (min domain.2 ((data.getLastD ⟨0, 0⟩).time))).map PricePoint.value

theorem tfOf_log_characterization (values : List ℚ) (anchor : ℚ) :
    (tfOf "log" values anchor = Real.log ↔ ∀ v ∈ values, 0 < v) ∧
    ((∃ v ∈ values, v ≤ 0) →
      tfOf "log" values anchor = (fun v => v) ∧ invfOf "log" values anchor = (fun v => v)) := by
  by_cases hall : ∀ v ∈ values, 0 < v
  · have htf : tfOf "log" values anchor = Real.log := by
      unfold tfOf
      rw [if_pos ⟨rfl, hall⟩]
    refine ⟨iff_of_true htf hall, ?_⟩
    rintro ⟨v, hv, hle⟩
    exact absurd (hall v hv) (not_lt.mpr hle)
  · have hcond : ¬ (("log" : String) = "log" ∧ ∀ v ∈ values, 0 < v) := by
      rintro ⟨_, h⟩
      exact hall h
    have hnp : ¬ (("log" : String) = "percent") := by decide
    have htf : tfOf "log" values anchor = (fun v => v) := by
      unfold tfOf
      rw [if_neg hcond, if_neg hnp]
    have hinv : invfOf "log" values anchor = (fun v => v) := by
      unfold invfOf
      rw [if_neg hcond, if_neg hnp]
    refine ⟨iff_of_false ?_ hall, fun _ => ⟨htf, hinv⟩⟩
    intro hid
    rw [htf] at hid
    have h1 := congrFun hid 1
    rw [Real.log_one] at h1
    exact one_ne_zero h1

/-- Claim C4: in log mode the value transform is the natural logarithm exactly
    when every visible value is positive; whenever some visible value is not
    positive, both tf and invf silently degrade to the identity. -/
theorem C4_log_mode_selection (data : List PricePoint) (domain : ℚ × ℚ) (anchor : ℚ) :
    (tfOf "log" (visibleValues data domain) anchor = Real.log ↔
      ∀ v ∈ visibleValues data domain, 0 < v) ∧
    ((∃ v ∈ visibleValues data domain, v ≤ 0) →
      tfOf "log" (visibleValues data domain) anchor = (fun v => v) ∧
      invfOf "log" (visibleValues data domain) anchor = (fun v => v)) :=
  tfOf_log_characterization (visibleValues data domain) anchor

/-- Witness for C4 at a concrete series containing a non-positive value. -/
theorem C4_witness :
    (∃ v ∈ visibleValues [⟨0, -1⟩, ⟨1, 2⟩] (0, 1), v ≤ 0) ∧
    tfOf "log" (visibleValues [⟨0, -1⟩, ⟨1, 2⟩] (0, 1)) 1 = (fun v => v) ∧
    invfOf "log" (visibleValues [⟨0, -1⟩, ⟨1, 2⟩] (0, 1)) 1 = (fun v => v) := by
  have hex : ∃ v ∈ visibleValues [⟨0, -1⟩, ⟨1, 2⟩] (0, 1), v ≤ 0 := by
    refine ⟨-1, ?_, by norm_num⟩
    norm_num [visibleValues, sliceOf]
  exact ⟨hex, (C4_log_mode_selection [⟨0, -1⟩, ⟨1, 2⟩] (0, 1) 1).2 hex⟩

/-- Claim C5 (amended): wheel updates keep the domain inside the full extent
    with x0 < x1 whenever the cursor pixel lies in the plot band [40, 1110]
    (outside it the clamps can invert the domain, see the counterexample);
    pan updates keep it unconditionally; panning leftward with the left edge at
    the full extent leaves x0 clamped there with the span preserved, provided
    the span is at least the pan minimum of 1/1000 of the full extent. -/
theorem C5_domain_invariants :
    (∀ (full dom : ℚ × ℚ) (px s : ℚ), 0 < s → 40 ≤ px → px ≤ 1110 →
      full.1 ≤ dom.1 → dom.1 < dom.2 → dom.2 ≤ full.2 →
      full.1 ≤ (wheelUpdate full dom px s).1 ∧
      (wheelUpdate full dom px s).1 < (wheelUpdate full dom px s).2 ∧
      (wheelUpdate full dom px s).2 ≤ full.2) ∧
    (∀ (full start : ℚ × ℚ) (dxPx : ℚ),
      full.1 ≤ start.1 → start.1 < start.2 → start.2 ≤ full.2 →
      full.1 ≤ (panUpdate full start dxPx).1 ∧
      (panUpdate full start dxPx).1 < (panUpdate full start dxPx).2 ∧
      (panUpdate full start dxPx).2 ≤ full.2) ∧
    (∀ (full start : ℚ × ℚ) (dxPx : ℚ),
      start.1 = full.1 → 0 ≤ dxPx → start.1 < start.2 → start.2 ≤ full.2 →
      (full.2 - full.1) / 1000 ≤ start.2 - start.1 →
      panUpdate full start dxPx = (full.1, full.1 + (start.2 - start.1))) :=
  ⟨fun full dom px s h1 h2 h3 h4 h5 h6 =>
      wheelUpdate_invariant full dom px s h1 h2 h3 h4 h5 h6,
   fun full start dxPx h1 h2 h3 =>
      panUpdate_invariant full start dxPx h1 h2 h3,
   fun full start dxPx h1 h2 h3 h4 h5 =>
      panUpdate_left_clamp full start dxPx h1 h2 h3 h4 h5⟩

/-- Witness for the amended C5 at concrete wheel and pan inputs. -/
theorem C5_witness :
    ((0 : ℚ) < 2 ∧ (40 : ℚ) ≤ 575 ∧ (575 : ℚ) ≤ 1110 ∧ (0 : ℚ) ≤ 100 ∧
      (100 : ℚ) < 600 ∧ (600 : ℚ) ≤ 1000 ∧
      (0 : ℚ) ≤ (wheelUpdate (0, 1000) (100, 600) 575 2).1 ∧
      (wheelUpdate (0, 1000) (100, 600) 575 2).1 < (wheelUpdate (0, 1000) (100, 600) 575 2).2 ∧
      (wheelUpdate (0, 1000) (100, 600) 575 2).2 ≤ 1000) ∧
    panUpdate (0, 1000) (0, 600) 100 = (0, 0 + (600 - 0)) := by
  constructor
  · refine ⟨by norm_num, by norm_num, by norm_num, by norm_num, by norm_num, by norm_num, ?_⟩
    exact (C5_domain_invariants.1 (0, 1000) (100, 600) 575 2 (by norm_num) (by norm_num)
      (by norm_num) (by norm_num) (by norm_num) (by norm_num))
  · exact C5_domain_invariants.2.2 (0, 1000) (0, 600) 100 (by norm_num) (by norm_num)
      (by norm_num) (by norm_num) (by norm_num)

/-- Witness for C2 at a concrete domain, cursor and scale. -/
theorem C2_witness :
    ((0 : ℚ) < 1 / 2 ∧ (1 : ℚ) / 2 < 1 ∧ (0 : ℚ) ≤ 100 ∧ (600 : ℚ) ≤ 1000 ∧
      (100 : ℚ) < 600 ∧ (40 : ℚ) ≤ 575 ∧ (575 : ℚ) ≤ 1110 ∧
      (1 / (1 / 2) : ℚ) * ((1000 - 0) / 500) ≤ 600 - 100) ∧
    wheelUpdate (0, 1000) (wheelUpdate (0, 1000) (100, 600) 575 (1 / 2)) 575 (1 / (1 / 2)) =
      (100, 600) := by
  refine ⟨⟨by norm_num, by norm_num, by norm_num, by norm_num, by norm_num, by norm_num,
    by norm_num, by norm_num⟩, ?_⟩
  exact C2_wheel_roundtrip (0, 1000) (100, 600) 575 (1 / 2) (by norm_num) (by norm_num)
    (by norm_num) (by norm_num) (by norm_num) (by norm_num) (by norm_num) (by norm_num)

/-- Claim C6: the geometry engine is total over its degenerate inputs: the empty
    series yields the inert record (empty path and ticks, identity scales, no
    last point, anchor 0); a degenerate transformed range with min = max is
    expanded by one either side before the 10 percent padding, making the final
    range exactly 12/5 wide; and both scale denominators are guarded strictly
    above zero, so no division by zero can occur. -/
theorem C6_degenerate_handling :
    (∀ (w h pl : ℚ) (i : String) (dom : ℚ × ℚ) (ym : String) (rm : ℚ),
      (computeGeometry [] w h pl i dom ym rm).path = [] ∧
      (computeGeometry [] w h pl i dom ym rm).xTicks = [] ∧
      (computeGeometry [] w h pl i dom ym rm).yTicks = [] ∧
      (computeGeometry [] w h pl i dom ym rm).xScale = (fun t => t) ∧
      (computeGeometry [] w h pl i dom ym rm).yScale = (fun v => v) ∧
      (computeGeometry [] w h pl i dom ym rm).last = none ∧
      (computeGeometry [] w h pl i dom ym rm).anchor = 0) ∧
    (∀ tVals : List ℝ, listMin tVals = listMax tVals →
      (boundsOf tVals).2 - (boundsOf tVals).1 = 12 / 5) ∧
    (∀ xMin xMax : ℚ, (0 : ℚ) < max 1 (xMax - xMin)) ∧
    (∀ tVals : List ℝ,
      (0 : ℝ) < max (1 / 1000000000) ((boundsOf tVals).2 - (boundsOf tVals).1)) := by
  refine ⟨?_, ?_, ?_, ?_⟩
  · intro w h pl i dom ym rm
    exact ⟨rfl, rfl, rfl, rfl, rfl, rfl, rfl⟩
  · intro tVals h
    unfold boundsOf
    dsimp only
    rw [if_pos h, h]
    dsimp only
    ring
  · intro xMin xMax
    exact lt_of_lt_of_le one_pos (le_max_left _ _)
  · intro tVals
    exact lt_of_lt_of_le (by norm_num) (le_max_left _ _)

/-- Witness for C6 at a concrete single-valued transformed range. -/
theorem C6_witness :
    listMin [(5 : ℝ)] = listMax [(5 : ℝ)] ∧
    (boundsOf [(5 : ℝ)]).2 - (boundsOf [(5 : ℝ)]).1 = 12 / 5 :=
  ⟨by simp [listMin, listMax], C6_degenerate_handling.2.1 [(5 : ℝ)] (by simp [listMin, listMax])⟩

/-- Claim C8 counterexample: when no series point lies inside the active domain
    the snap loop leaves the initial synth[0], whose timestamp is outside the
    domain, so the crosshair point need not lie within [x0, x1]. -/
theorem C8_counterexample :
    (crossNearest [⟨0, 10⟩, ⟨10, 20⟩] (3, 4) (tAtCursor (3, 4) 40)).time = 0 ∧
    ¬ ((3 : ℚ) ≤ (crossNearest [⟨0, 10⟩, ⟨10, 20⟩] (3, 4) (tAtCursor (3, 4) 40)).time) := by
  have hts : tAtCursor (3, 4) 40 = 3 := by
    unfold tAtCursor
    norm_num
  rw [hts]
  have h : crossNearest [⟨0, 10⟩, ⟨10, 20⟩] (3, 4) 3 = ⟨0, 10⟩ := by
    norm_num [crossNearest, crossGo]
  rw [h]
  norm_num

/-- Claim C8 (amended): whenever at least one series point lies inside the
    active domain, the crosshair snaps to an in-domain series point of minimum
    time-distance to the cursor's mapped timestamp, the earliest such point
    under ties, and exposes exactly its pixel position, timestamp and value. -/
theorem C8_crosshair_nearest (chart : ChartGeometry) (synth : List PricePoint)
    (dom : ℚ × ℚ) (px : ℚ)
    (hex : ∃ q ∈ synth, dom.1 ≤ q.time ∧ q.time ≤ dom.2) :
    crossNearest synth dom (tAtCursor dom px) ∈ synth ∧
    dom.1 ≤ (crossNearest synth dom (tAtCursor dom px)).time ∧
    (crossNearest synth dom (tAtCursor dom px)).time ≤ dom.2 ∧
    (∀ q ∈ synth, dom.1 ≤ q.time → q.time ≤ dom.2 →
      |(crossNearest synth dom (tAtCursor dom px)).time - tAtCursor dom px| ≤
        |q.time - tAtCursor dom px|) ∧
    (∃ l1 l2, synth = l1 ++ crossNearest synth dom (tAtCursor dom px) :: l2 ∧
      ∀ q ∈ l1, dom.1 ≤ q.time → q.time ≤ dom.2 →
        |(crossNearest synth dom (tAtCursor dom px)).time - tAtCursor dom px| <
          |q.time - tAtCursor dom px|) ∧
    crossOf chart synth dom px =
      ⟨chart.xScale (crossNearest synth dom (tAtCursor dom px)).time,
       chart.yScale ((crossNearest synth dom (tAtCursor dom px)).value : ℝ),
       (crossNearest synth dom (tAtCursor dom px)).time,
       (crossNearest synth dom (tAtCursor dom px)).value⟩ := by
  match synth with
  | [] =>
      obtain ⟨q, hq, _⟩ := hex
      exact absurd hq (List.not_mem_nil q)
  | p0 :: rest =>
      obtain ⟨q, hq, hqd⟩ := hex
      have hfound := crossGo_found dom (tAtCursor dom px) (p0 :: rest) p0 ⊤
        ⟨q, hq, hqd, WithTop.coe_lt_top _⟩
      obtain ⟨hmem, hd1, hd2, hmin, _, l1, l2, hsplit, hearly⟩ := hfound
      exact ⟨hmem, hd1, hd2, hmin, ⟨l1, l2, hsplit, hearly⟩, rfl⟩

/-- Witness for the amended C8 at a concrete series with an in-domain point. -/
theorem C8_witness :
    (∃ q ∈ ([⟨5, 10⟩, ⟨20, 30⟩] : List PricePoint), (0 : ℚ) ≤ q.time ∧ q.time ≤ 7) ∧
    crossNearest [⟨5, 10⟩, ⟨20, 30⟩] (0, 7) (tAtCursor (0, 7) 40) ∈
      ([⟨5, 10⟩, ⟨20, 30⟩] : List PricePoint) ∧
    (0 : ℚ) ≤ (crossNearest [⟨5, 10⟩, ⟨20, 30⟩] (0, 7) (tAtCursor (0, 7) 40)).time ∧
    (crossNearest [⟨5, 10⟩, ⟨20, 30⟩] (0, 7) (tAtCursor (0, 7) 40)).time ≤ 7 := by
  have hex : ∃ q ∈ ([⟨5, 10⟩, ⟨20, 30⟩] : List PricePoint), (0 : ℚ) ≤ q.time ∧ q.time ≤ 7 := by
    refine ⟨⟨5, 10⟩, by simp, by norm_num, by norm_num⟩
  have h := C8_crosshair_nearest
    (computeGeometry [] 1200 640 40 "60" (0, 1) "linear" 90)
    [⟨5, 10⟩, ⟨20, 30⟩] (0, 7) 40 hex
  exact ⟨hex, h.1, h.2.1, h.2.2.1⟩
